import Mathlib

/-!
# Verification of the `simplevc` version registry and CLI generator

Shallow embedding of `src/simplevc/simplevc.py`.

Python strings are modelled as `List Char` (`PyStr`); Python's string
comparison is lexicographic on code points, which is exactly the
lexicographic `LinearOrder` on `List Char`.  The registry maps function base
names to per-version tables (association lists, mirroring insertion-ordered
Python dicts).  The resolver (`_get_last_version`) performs a predecessor
search via `bisect.bisect_right` over a sorted key list.
-/

namespace Simplevc

/-- A Python string: its list of characters (code points). -/
abbrev PyStr := List Char

/-- Binary-search worker mirroring CPython's `bisect.bisect_right` loop:
`while lo < hi: mid = (lo+hi)//2; if v < a[mid]: hi = mid else: lo = mid+1`.
The loop shrinks `hi - lo` at every step, so `fuel` many iterations suffice
whenever `hi - lo ≤ fuel`; `hhi : hi ≤ a.length` witnesses that every probed
index is in range, as in the library routine called with `hi = len(a)`. -/
def bisectRightAux {α : Type} [LinearOrder α] (a : List α) (v : α) :
    (fuel lo hi : Nat) → hi ≤ a.length → Nat
  | 0, lo, _, _ => lo
  | fuel + 1, lo, hi, hhi =>
    if h : lo < hi then
      if v < a.get ⟨(lo + hi) / 2, by omega⟩ then
        bisectRightAux a v fuel lo ((lo + hi) / 2) (by omega)
      else
        bisectRightAux a v fuel ((lo + hi) / 2 + 1) hi hhi
    else
      lo

/-- `bisect.bisect_right(a, v)` with the default bounds `lo = 0`,
`hi = len(a)`. -/
def bisect_right {α : Type} [LinearOrder α] (a : List α) (v : α) : Nat :=
  bisectRightAux a v a.length 0 a.length (Nat.le_refl _)

/-- `_get_last_version(available_versions, version)` (simplevc.py:188-194):
`idx = bisect.bisect_right(available_versions, version) - 1`; returns `None`
when `idx < 0`, else `available_versions[idx]`.  The subtraction is on ℤ as
in Python. -/
def _get_last_version {α : Type} [LinearOrder α] (a : List α) (v : α) :
    Option α :=
  let idx : Int := (bisect_right a v : Int) - 1
  if idx < 0 then none else a.get? idx.toNat

/-- `_get_first_available_version(available_versions)` (simplevc.py:185-186):
`available_versions[0]`; indexing an empty list raises in Python, modelled
by `Option`. -/
def _get_first_available_version {α : Type} (a : List α) : Option α :=
  a.head?

/-- Python's builtin `sorted` on a list of keys: the ascending permutation
of the input (simplevc always passes `sorted(d.keys())` to the resolver). -/
def pySorted {α : Type} [LinearOrder α] (l : List α) : List α :=
  l.insertionSort (· ≤ ·)

example : bisect_right ["20200601".data, "20200721".data] "20200615".data
    = 1 := by decide

example : _get_last_version ["20200601".data, "20200721".data]
    "20200615".data = some "20200601".data := by decide

example : _get_last_version ["20200601".data, "20200721".data]
    "20200501".data = none := by decide

example : pySorted ["20200721".data, "20200601".data] =
    ["20200601".data, "20200721".data] := by decide

/-! ## Correctness of the predecessor search -/

theorem bisectRightAux_spec {α : Type} [LinearOrder α] (a : List α) (v : α)
    (hs : List.Sorted (· ≤ ·) a) :
    ∀ (fuel lo hi : Nat) (hhi : hi ≤ a.length), hi - lo ≤ fuel → lo ≤ hi →
    (∀ i (hia : i < a.length), i < lo → a.get ⟨i, hia⟩ ≤ v) →
    (∀ i (hia : i < a.length), hi ≤ i → v < a.get ⟨i, hia⟩) →
    lo ≤ bisectRightAux a v fuel lo hi hhi ∧
    bisectRightAux a v fuel lo hi hhi ≤ hi ∧
    (∀ i (hia : i < a.length), i < bisectRightAux a v fuel lo hi hhi →
      a.get ⟨i, hia⟩ ≤ v) ∧
    (∀ i (hia : i < a.length), bisectRightAux a v fuel lo hi hhi ≤ i →
      v < a.get ⟨i, hia⟩) := by
  intro fuel
  induction fuel with
  | zero =>
    intro lo hi hhi hfuel hlohi hlow hhigh
    have hle : lo = hi := by omega
    subst hle
    simp only [bisectRightAux]
    exact ⟨Nat.le_refl _, Nat.le_refl _, hlow, fun i hia hi2 => hhigh i hia hi2⟩
  | succ fuel ih =>
    intro lo hi hhi hfuel hlohi hlow hhigh
    simp only [bisectRightAux]
    by_cases h : lo < hi
    · rw [dif_pos h]
      by_cases hv : v < a.get ⟨(lo + hi) / 2, by omega⟩
      · rw [if_pos hv]
        refine (ih lo ((lo + hi) / 2) (by omega) (by omega) (by omega) hlow
          ?_).imp id (fun q => ⟨by omega, q.2⟩)
        intro i hia hmid
        have hmono : a.get ⟨(lo + hi) / 2, by omega⟩ ≤ a.get ⟨i, hia⟩ :=
          hs.rel_get_of_le (by simpa using hmid)
        exact lt_of_lt_of_le hv hmono
      · rw [if_neg hv]
        push_neg at hv
        refine (ih ((lo + hi) / 2 + 1) hi hhi (by omega) (by omega) ?_
          hhigh).imp (fun q => by omega) id
        intro i hia hmid
        have hmono : a.get ⟨i, hia⟩ ≤ a.get ⟨(lo + hi) / 2, by omega⟩ :=
          hs.rel_get_of_le (by simp; omega)
        exact le_trans hmono hv
    · rw [dif_neg h]
      have hle : lo = hi := by omega
      subst hle
      exact ⟨Nat.le_refl _, Nat.le_refl _, hlow, fun i hia hi2 => hhigh i hia hi2⟩

theorem bisect_right_spec {α : Type} [LinearOrder α] (a : List α) (v : α)
    (hs : List.Sorted (· ≤ ·) a) :
    bisect_right a v ≤ a.length ∧
    (∀ i (hia : i < a.length), i < bisect_right a v → a.get ⟨i, hia⟩ ≤ v) ∧
    (∀ i (hia : i < a.length), bisect_right a v ≤ i → v < a.get ⟨i, hia⟩) := by
  have h := bisectRightAux_spec a v hs a.length 0 a.length (Nat.le_refl _)
    (by omega) (by omega) (fun i hia hlt => by omega)
    (fun i hia hge => by omega)
  exact ⟨h.2.1, h.2.2.1, h.2.2.2⟩

/-- On a sorted list, the resolver returns `none` exactly when the requested
version precedes every element. -/
theorem get_last_version_eq_none_iff {α : Type} [LinearOrder α] (a : List α)
    (v : α) (hs : List.Sorted (· ≤ ·) a) :
    _get_last_version a v = none ↔ ∀ x ∈ a, v < x := by
  obtain ⟨hlen, hlow, hhigh⟩ := bisect_right_spec a v hs
  unfold _get_last_version
  constructor
  · intro hnone x hx
    obtain ⟨i, hi⟩ := List.mem_iff_get.mp hx
    by_cases hz : bisect_right a v = 0
    · exact hi ▸ hhigh i.1 i.2 (by omega)
    · exfalso
      rw [if_neg (by omega)] at hnone
      have hidx : ((bisect_right a v : Int) - 1).toNat < a.length := by omega
      rw [List.get?_eq_get hidx] at hnone
      exact Option.some_ne_none _ hnone
  · intro hall
    rw [if_pos ?_]
    by_contra hz
    push_neg at hz
    have hbz : 0 < bisect_right a v := by omega
    have h0 : a.get ⟨0, by omega⟩ ≤ v := hlow 0 (by omega) hbz
    exact absurd (hall _ (List.get_mem a 0 _)) (not_lt.mpr h0)

/-- On a sorted list, a successful resolution returns a member that is the
greatest element not exceeding the requested version. -/
theorem get_last_version_eq_some {α : Type} [LinearOrder α] (a : List α)
    (v e : α) (hs : List.Sorted (· ≤ ·) a)
    (h : _get_last_version a v = some e) :
    e ∈ a ∧ e ≤ v ∧ ∀ x ∈ a, x ≤ v → x ≤ e := by
  obtain ⟨hlen, hlow, hhigh⟩ := bisect_right_spec a v hs
  unfold _get_last_version at h
  by_cases hz : bisect_right a v = 0
  · rw [if_pos (by omega)] at h
    exact absurd h (Option.noConfusion)
  · rw [if_neg (by omega)] at h
    have hidx : ((bisect_right a v : Int) - 1).toNat < a.length := by omega
    rw [List.get?_eq_get hidx] at h
    obtain rfl : a.get ⟨_, hidx⟩ = e := Option.some_injective _ h
    refine ⟨List.get_mem a _ _, hlow _ hidx (by omega), ?_⟩
    intro x hx hxv
    obtain ⟨j, hj⟩ := List.mem_iff_get.mp hx
    by_cases hjlt : j.1 < bisect_right a v
    · have hle := hs.rel_get_of_le (a := j) (b := ⟨_, hidx⟩)
        (by rw [Fin.le_def]
            change j.1 ≤ ((bisect_right a v : Int) - 1).toNat
            omega)
      exact hj ▸ hle
    · exact absurd hxv (not_le.mpr (hj ▸ hhigh j.1 j.2 (by omega)))

theorem sorted_pySorted {α : Type} [LinearOrder α] (l : List α) :
    List.Sorted (· ≤ ·) (pySorted l) :=
  List.sorted_insertionSort _ l

theorem mem_pySorted {α : Type} [LinearOrder α] {l : List α} {x : α} :
    x ∈ pySorted l ↔ x ∈ l :=
  List.mem_insertionSort _

theorem pySorted_eq_nil_iff {α : Type} [LinearOrder α] {l : List α} :
    pySorted l = [] ↔ l = [] := by
  constructor
  · intro h
    have hp := List.perm_insertionSort (· ≤ ·) l
    rw [pySorted] at h
    rw [h] at hp
    exact hp.symm.eq_nil
  · intro h
    subst h
    rfl

/-- The head of a sorted list is a lower bound for all its elements. -/
theorem head_of_sorted_is_min {α : Type} [LinearOrder α] {l : List α} {h : α}
    (hs : List.Sorted (· ≤ ·) l) (hh : l.head? = some h) :
    ∀ x ∈ l, h ≤ x := by
  cases l with
  | nil => exact absurd hh (Option.noConfusion)
  | cons a t =>
    obtain rfl : a = h := Option.some_injective _ hh
    intro x hx
    rcases List.mem_cons.mp hx with rfl | hxt
    · exact le_refl x
    · exact List.rel_of_sorted_cons hs x hxt

/-! ## Claim C1 -/

/-- **C1.** For every ascending (sorted) list `L` of version keys and every
requested version `V`, `_get_last_version` returns the maximal element
`e ∈ L` with `e ≤ V`, and returns `none` if and only if `V` is strictly
smaller than every element of `L`. -/
theorem C1_resolver_predecessor {α : Type} [LinearOrder α] (L : List α)
    (V : α) (hs : List.Sorted (· ≤ ·) L) :
    (∀ e, _get_last_version L V = some e →
      e ∈ L ∧ e ≤ V ∧ ∀ x ∈ L, x ≤ V → x ≤ e) ∧
    (_get_last_version L V = none ↔ ∀ x ∈ L, V < x) :=
  ⟨fun e he => get_last_version_eq_some L V e hs he,
   get_last_version_eq_none_iff L V hs⟩

theorem C1_resolver_predecessor_witness :
    List.Sorted (· ≤ ·) ["20200601".data, "20200721".data] ∧
    ((∀ e, _get_last_version ["20200601".data, "20200721".data]
        "20200615".data = some e →
      e ∈ ["20200601".data, "20200721".data] ∧ e ≤ "20200615".data ∧
        ∀ x ∈ ["20200601".data, "20200721".data], x ≤ "20200615".data →
          x ≤ e) ∧
    (_get_last_version ["20200601".data, "20200721".data] "20200615".data =
        none ↔ ∀ x ∈ ["20200601".data, "20200721".data],
          "20200615".data < x)) :=
  ⟨by decide, C1_resolver_predecessor ["20200601".data, "20200721".data]
    "20200615".data (by decide)⟩

/-! ## The dispatch proxy -/

/-- Python dict read `d[k]`: the value bound to `k` (a Python dict has at
most one binding per key; the association list mirrors its insertion
order). -/
def dictLookup {κ ν : Type} [DecidableEq κ] (d : List (κ × ν)) (k : κ) :
    Option ν :=
  match d with
  | [] => none
  | p :: rest => if p.1 = k then some p.2 else dictLookup rest k

/-- Python dict write `d[k] = v`: overwrite the existing binding in place,
else append a new binding (insertion order, as Python dicts preserve it). -/
def dictSet {κ ν : Type} [DecidableEq κ] (d : List (κ × ν)) (k : κ) (v : ν) :
    List (κ × ν) :=
  if (dictLookup d k).isSome then
    d.map (fun p => if p.1 = k then (k, v) else p)
  else
    d ++ [(k, v)]

theorem dictLookup_isSome_iff {κ ν : Type} [DecidableEq κ]
    (d : List (κ × ν)) (k : κ) :
    (dictLookup d k).isSome ↔ k ∈ d.map Prod.fst := by
  induction d with
  | nil => simp [dictLookup]
  | cons p rest ih =>
    by_cases h : p.1 = k
    · simp [dictLookup, h]
    · simp [dictLookup, h, ih, Ne.symm h]

theorem dictLookup_eq_some_mem {κ ν : Type} [DecidableEq κ]
    {d : List (κ × ν)} {k : κ} {v : ν} (h : dictLookup d k = some v) :
    (k, v) ∈ d := by
  induction d with
  | nil => exact absurd h (Option.noConfusion)
  | cons p rest ih =>
    by_cases hp : p.1 = k
    · rw [dictLookup, if_pos hp] at h
      obtain rfl : p.2 = v := Option.some_injective _ h
      exact List.mem_cons.mpr (Or.inl (by rw [← hp]))
    · rw [dictLookup, if_neg hp] at h
      exact List.mem_cons.mpr (Or.inr (ih h))

/-- The content of the exception raised by `_run_method`
(simplevc.py:260): `f"The method {function_name} is not available at
version {version}. \nThe first available version is
{_get_first_available_version(sorted(method_dict.keys()))}."`.  The three
interpolated values are modelled as fields. -/
structure RunError where
  method : PyStr
  version : PyStr
  first_available : Option PyStr
deriving DecidableEq

/-- `_run_method(*args, version=None, **kwargs)` (simplevc.py:255-261), the
closure installed as the dispatch proxy: default the version to the
module's active version, resolve over the sorted keys, raise when no
version qualifies, otherwise forward the arguments unchanged to the
resolved implementation.  Implementations are values of type `ρ → σ`;
raising is modelled by `Except.error`.  The final `.error` branch is
unreachable: a resolved version is always a key of `method_dict`. -/
def _run_method {ρ σ : Type} (method_dict : List (PyStr × (ρ → σ)))
    (function_name : PyStr) (module_version : PyStr) (args : ρ)
    (version? : Option PyStr) : Except RunError σ :=
  let version := version?.getD module_version
  let keys := pySorted (method_dict.map Prod.fst)
  match _get_last_version keys version with
  | none => .error ⟨function_name, version, _get_first_available_version keys⟩
  | some rversion =>
    match dictLookup method_dict rversion with
    | some f => .ok (f args)
    | none => .error ⟨function_name, version, none⟩

/-- A module under version control: `_method_dicts`, `_tool_dicts` and
`_version` (simplevc.py:402-404, 217).  Implementations take arguments of
type `ρ` to results of type `σ`; tool metadata records have type `τ`. -/
structure PModule (ρ σ τ : Type) where
  method_dicts : List (PyStr × List (PyStr × (ρ → σ)))
  tool_dicts : List (PyStr × List (PyStr × τ))
  version : PyStr

/-- Calling the dispatch proxy installed under `function_name`
(simplevc.py:262): the closure captured the method dict registered under
that name and reads `module._version` at call time; it mutates nothing, so
the state is returned unchanged.  The `none` branch is unreachable: a proxy
is installed only for registered names. -/
def proxy_call {ρ σ τ : Type} (m : PModule ρ σ τ) (function_name : PyStr)
    (args : ρ) (version? : Option PyStr) :
    Except RunError σ × PModule ρ σ τ :=
  match dictLookup m.method_dicts function_name with
  | some d => (_run_method d function_name m.version args version?, m)
  | none => (.error ⟨function_name, version?.getD m.version, none⟩, m)

/-! ## Claim C2 -/

/-- **C2.** If the effective requested version `V` (the explicit override,
or the active version when no override is given) precedes every registered
version of a function, the dispatch proxy raises — no implementation is
invoked (the result is `Except.error`) — and the error content names both
the requested version `V` and the earliest registered version of that
name. -/
theorem C2_unavailable_error_names_versions {ρ σ τ : Type}
    (m : PModule ρ σ τ) (name : PyStr) (d : List (PyStr × (ρ → σ)))
    (args : ρ) (version? : Option PyStr) (V : PyStr)
    (hd : dictLookup m.method_dicts name = some d)
    (hne : d ≠ [])
    (hV : version?.getD m.version = V)
    (hpre : ∀ k ∈ d.map Prod.fst, V < k) :
    (proxy_call m name args version?).1 =
      .error ⟨name, V, (pySorted (d.map Prod.fst)).head?⟩ ∧
    (pySorted (d.map Prod.fst)).head?.isSome ∧
    ∀ w, (pySorted (d.map Prod.fst)).head? = some w →
      w ∈ d.map Prod.fst ∧ ∀ k ∈ d.map Prod.fst, w ≤ k := by
  have hpre' : ∀ k ∈ pySorted (d.map Prod.fst), V < k := by
    intro k hk
    exact hpre k (mem_pySorted.mp hk)
  have hnone : _get_last_version (pySorted (d.map Prod.fst)) V = none :=
    (get_last_version_eq_none_iff _ V (sorted_pySorted _)).mpr hpre'
  have hkeysne : pySorted (d.map Prod.fst) ≠ [] := by
    intro hnil
    have : d.map Prod.fst = [] := pySorted_eq_nil_iff.mp hnil
    exact hne (List.map_eq_nil_iff.mp this)
  refine ⟨?_, ?_, ?_⟩
  · simp only [proxy_call, hd, _run_method, hV, hnone,
      _get_first_available_version]
  · cases hkeys : (pySorted (d.map Prod.fst)).head? with
    | none => exact absurd (List.head?_eq_none_iff.mp hkeys) hkeysne
    | some w => rfl
  · intro w hw
    refine ⟨?_, ?_⟩
    · exact mem_pySorted.mp (List.mem_of_mem_head? hw)
    · intro k hk
      exact head_of_sorted_is_min (sorted_pySorted _) hw k
        (mem_pySorted.mpr hk)

/-! ## Claim C4 -/

/-- **C4.** With an explicit per-call version override `v`, the dispatched
result depends only on `v` and the registered implementations, never on the
module's active version (or its tool table): dispatching under active
version `A1` and under active version `A2` gives identical results. -/
theorem C4_explicit_version_ignores_active_version {ρ σ τ : Type}
    (dicts : List (PyStr × List (PyStr × (ρ → σ))))
    (tools1 tools2 : List (PyStr × List (PyStr × τ))) (A1 A2 : PyStr)
    (name : PyStr) (args : ρ) (v : PyStr) :
    (proxy_call ⟨dicts, tools1, A1⟩ name args (some v)).1 =
    (proxy_call ⟨dicts, tools2, A2⟩ name args (some v)).1 := by
  unfold proxy_call
  cases hd : dictLookup dicts name with
  | none => rfl
  | some d => rfl

/-! ## Claim C5 -/

/-- **C5.** A dispatch-proxy call has no side effect beyond the forwarded
call: the module state (`_method_dicts`, `_tool_dicts`, `_version`) is left
exactly as it was, and on successful resolution the arguments are passed
unchanged to the resolved implementation `f`, whose result is returned
unchanged. -/
theorem C5_dispatch_frame_and_forwarding {ρ σ τ : Type} (m : PModule ρ σ τ)
    (name : PyStr) (args : ρ) (version? : Option PyStr) :
    (proxy_call m name args version?).2 = m ∧
    ∀ d rv f, dictLookup m.method_dicts name = some d →
      _get_last_version (pySorted (d.map Prod.fst))
        (version?.getD m.version) = some rv →
      dictLookup d rv = some f →
      (proxy_call m name args version?).1 = .ok (f args) := by
  constructor
  · unfold proxy_call
    cases hd : dictLookup m.method_dicts name with
    | none => rfl
    | some d => rfl
  · intro d rv f hd hrv hf
    simp only [proxy_call, hd, _run_method, hrv, hf]

/-! ## Concrete example module used by witnesses (mirrors `example/pm.py`) -/

/-- The 20200601 implementation used in witnesses. -/
def implA : Nat → Nat := fun n => n + 1

/-- The 20200721 implementation used in witnesses. -/
def implB : Nat → Nat := fun n => n * 2

/-- A concrete registered method dict with versions 20200601 and 20200721. -/
def dictW : List (PyStr × (Nat → Nat)) :=
  [("20200601".data, implA), ("20200721".data, implB)]

/-- A concrete module with one registered method and active version
20200801. -/
def moduleW : PModule Nat Nat Unit :=
  ⟨[("some_method".data, dictW)], [], "20200801".data⟩

theorem C2_unavailable_error_names_versions_witness :
    dictLookup moduleW.method_dicts "some_method".data = some dictW ∧
    dictW ≠ [] ∧
    (some "20200501".data).getD moduleW.version = "20200501".data ∧
    (∀ k ∈ dictW.map Prod.fst, "20200501".data < k) ∧
    ((proxy_call moduleW "some_method".data 41 (some "20200501".data)).1 =
      .error ⟨"some_method".data, "20200501".data,
        (pySorted (dictW.map Prod.fst)).head?⟩ ∧
    (pySorted (dictW.map Prod.fst)).head?.isSome ∧
    ∀ w, (pySorted (dictW.map Prod.fst)).head? = some w →
      w ∈ dictW.map Prod.fst ∧ ∀ k ∈ dictW.map Prod.fst, w ≤ k) :=
  ⟨rfl, List.cons_ne_nil _ _, rfl, by decide,
   C2_unavailable_error_names_versions moduleW "some_method".data dictW 41
     (some "20200501".data) "20200501".data rfl (List.cons_ne_nil _ _) rfl
     (by decide)⟩

theorem C5_dispatch_frame_and_forwarding_witness :
    (proxy_call moduleW "some_method".data 20 none).2 = moduleW ∧
    (proxy_call moduleW "some_method".data 20 none).1 = .ok (implB 20) :=
  ⟨(C5_dispatch_frame_and_forwarding moduleW "some_method".data 20 none).1,
   (C5_dispatch_frame_and_forwarding moduleW "some_method".data 20 none).2
     dictW "20200721".data implB rfl (by decide) rfl⟩

/-! ## The CLI surface builder -/

/-- The subcommand-construction loop of `module_main`
(simplevc.py:309-318): for each registered tool name, resolve its metadata
version against the module's active version; `continue` (skip the tool,
without error) when no version resolves, else emit one subcommand carrying
the tool name, the resolved version and that version's metadata record.
The final `none` fallback is unreachable: the resolved version is always a
key of the tool dict. -/
def cli_subcommands {τ : Type} (tool_dicts : List (PyStr × List (PyStr × τ)))
    (active : PyStr) : List (PyStr × PyStr × τ) :=
  tool_dicts.filterMap (fun p =>
    match _get_last_version (pySorted (p.2.map Prod.fst)) active with
    | none => none
    | some rv =>
      match dictLookup p.2 rv with
      | some meta => some (p.1, rv, meta)
      | none => none)

/-! ## Claim C6 -/

/-- **C6.** When the CLI surface is built, exactly those tool names for
which some registered tool-metadata version is ≤ the active version (i.e.
the resolver finds an applicable version) become subcommands; a tool name
with no applicable version is omitted (the builder is total — omission
raises no error). -/
theorem C6_cli_subcommands_exactly_resolvable {τ : Type}
    (tool_dicts : List (PyStr × List (PyStr × τ))) (active : PyStr)
    (name : PyStr) :
    name ∈ (cli_subcommands tool_dicts active).map (fun e => e.1) ↔
    ∃ d, (name, d) ∈ tool_dicts ∧ ∃ v ∈ d.map Prod.fst, v ≤ active := by
  constructor
  · intro hmem
    obtain ⟨e, he, hename⟩ := List.mem_map.mp hmem
    obtain ⟨p, hp, hfp⟩ := List.mem_filterMap.mp he
    split at hfp
    · exact absurd hfp (Option.noConfusion)
    · next rv hres =>
      split at hfp
      · next meta hlk =>
        obtain rfl : (p.1, rv, meta) = e := Option.some_injective _ hfp
        obtain ⟨hrvmem, hrvle, _⟩ :=
          get_last_version_eq_some _ active rv (sorted_pySorted _) hres
        subst hename
        exact ⟨p.2, hp, rv, mem_pySorted.mp hrvmem, hrvle⟩
      · exact absurd hfp (Option.noConfusion)
  · intro hex
    obtain ⟨d, hd, v, hv, hvle⟩ := hex
    cases hres : _get_last_version (pySorted (d.map Prod.fst)) active with
    | none =>
      have hall := (get_last_version_eq_none_iff _ active
        (sorted_pySorted _)).mp hres v (mem_pySorted.mpr hv)
      exact absurd hvle (not_le.mpr hall)
    | some rv =>
      obtain ⟨hrvmem, _, _⟩ :=
        get_last_version_eq_some _ active rv (sorted_pySorted _) hres
      have hlk : (dictLookup d rv).isSome :=
        (dictLookup_isSome_iff d rv).mpr (mem_pySorted.mp hrvmem)
      cases hmeta : dictLookup d rv with
      | none => rw [hmeta] at hlk; exact absurd hlk (by simp)
      | some meta =>
        refine List.mem_map.mpr ⟨(name, rv, meta), ?_, rfl⟩
        refine List.mem_filterMap.mpr ⟨(name, d), hd, ?_⟩
        simp only [hres, hmeta]

theorem C6_cli_subcommands_exactly_resolvable_witness :
    ("copy_file".data ∈ (cli_subcommands
        [("copy_file".data, [("20200701".data, 0)])] "20200801".data).map
        (fun e => e.1) ↔
      ∃ d, ("copy_file".data, d) ∈
          [("copy_file".data, [("20200701".data, (0 : Nat))])] ∧
        ∃ v ∈ d.map Prod.fst, v ≤ "20200801".data) ∧
    ("copy_file".data ∈ (cli_subcommands
        [("copy_file".data, [("20200701".data, (0 : Nat))])]
        "20200601".data).map (fun e => e.1) ↔
      ∃ d, ("copy_file".data, d) ∈
          [("copy_file".data, [("20200701".data, (0 : Nat))])] ∧
        ∃ v ∈ d.map Prod.fst, v ≤ "20200601".data) :=
  ⟨C6_cli_subcommands_exactly_resolvable _ _ _,
   C6_cli_subcommands_exactly_resolvable _ _ _⟩

/-! ## Per-parameter flag configuration -/

/-- A parameter of a tool's signature: its name, and its own declared
default if any (`inspect._empty` is modelled by `none`). -/
structure PyParam (δ : Type) where
  name : PyStr
  default : Option δ

/-- The flag keyword arguments assembled per parameter: `help`, `required`
and `default` (a missing `default` key is `none`). -/
structure FlagConf (δ : Type) where
  help : PyStr
  required : Bool
  default : Option δ

/-- Lines 321-334 of `module_main`: help text from an explicit override or
the placeholder `"_"`; then `if param.name in defaults` take the explicit
default override (optional flag), `elif param.default != inspect._empty`
take the signature default (optional flag), `else` the flag is required.
The type/nargs assignment (lines 336-346) writes distinct keys and does not
touch these; `generate_tool_manual` (lines 553-567) repeats the identical
logic. -/
def param_flag_config {δ : Type} (helps : List (PyStr × PyStr))
    (defaults : List (PyStr × δ)) (param : PyParam δ) : FlagConf δ :=
  let help := match dictLookup helps param.name with
    | some h => h
    | none => "_".data
  match dictLookup defaults param.name with
  | some d => ⟨help, false, some d⟩
  | none =>
    match param.default with
    | some d => ⟨help, false, some d⟩
    | none => ⟨help, true, none⟩

/-! ## Claim C7 -/

/-- **C7.** A generated flag is optional — `required = false`, carrying a
default value — if and only if an explicit default override is declared for
the parameter name or the parameter's own signature declares a default;
otherwise it is required.  When both an explicit override and a signature
default exist, the override's value is used; the signature default is used
only when no override exists. -/
theorem C7_flag_optional_iff_default {δ : Type}
    (helps : List (PyStr × PyStr)) (defaults : List (PyStr × δ))
    (param : PyParam δ) :
    ((param_flag_config helps defaults param).required = false ↔
      (dictLookup defaults param.name).isSome ∨ param.default.isSome) ∧
    ((param_flag_config helps defaults param).required = false ↔
      (param_flag_config helps defaults param).default.isSome) ∧
    (∀ d, dictLookup defaults param.name = some d →
      (param_flag_config helps defaults param).default = some d) ∧
    (dictLookup defaults param.name = none →
      (param_flag_config helps defaults param).default = param.default) := by
  cases hov : dictLookup defaults param.name with
  | some d => simp [param_flag_config, hov]
  | none =>
    cases hpd : param.default with
    | some d => simp [param_flag_config, hov, hpd]
    | none => simp [param_flag_config, hov, hpd]

theorem C7_flag_optional_iff_default_witness :
    ((param_flag_config [] [("srcfile".data, 5)]
        ⟨"srcfile".data, some 7⟩).required = false ↔
      (dictLookup [("srcfile".data, (5 : Nat))] "srcfile".data).isSome ∨
      (some (7 : Nat)).isSome) ∧
    ((param_flag_config [] [("srcfile".data, 5)]
        ⟨"srcfile".data, some 7⟩).required = false ↔
      (param_flag_config [] [("srcfile".data, 5)]
        ⟨"srcfile".data, some 7⟩).default.isSome) ∧
    (∀ d, dictLookup [("srcfile".data, (5 : Nat))] "srcfile".data = some d →
      (param_flag_config [] [("srcfile".data, 5)]
        ⟨"srcfile".data, some 7⟩).default = some d) ∧
    (dictLookup [("srcfile".data, (5 : Nat))] "srcfile".data = none →
      (param_flag_config [] [("srcfile".data, 5)]
        ⟨"srcfile".data, some 7⟩).default = some 7) :=
  C7_flag_optional_iff_default [] [("srcfile".data, 5)]
    ⟨"srcfile".data, some 7⟩

/-! ## Module metadata state: registration and version switching -/

/-- The introspectable metadata of a registered implementation (its
`__doc__`; `functools.update_wrapper` copies it onto the proxy). -/
structure FuncMeta where
  doc : Option PyStr
deriving DecidableEq

/-- The introspectable metadata of an installed dispatch proxy: `__name__`,
`__qualname__` and `__doc__`. -/
structure WrapperMeta where
  name : PyStr
  qualname : PyStr
  doc : Option PyStr
deriving DecidableEq

/-- A registered module as seen by the metadata machinery:
`_method_dicts`, the proxies' metadata (one per installed attribute) and
`_version`. -/
structure MetaModule where
  method_dicts : List (PyStr × List (PyStr × FuncMeta))
  wrappers : PyStr → Option WrapperMeta
  version : PyStr

/-- Overwrite the metadata of the proxy installed under `k`. -/
def setWrapper (w : PyStr → Option WrapperMeta) (k : PyStr)
    (v : WrapperMeta) : PyStr → Option WrapperMeta :=
  fun k2 => if k2 = k then some v else w k2

/-- The fallback docstring (simplevc.py:209-210): `f"The method
{function_name} is not available at version {version}.\n\t\tThe first
available version is {first}."`. -/
def unavailMsg (function_name version first : PyStr) : PyStr :=
  "The method ".data ++ function_name ++
  " is not available at version ".data ++ version ++
  ".\n\t\tThe first available version is ".data ++ first ++ ".".data

/-- The metadata `_update_module_vc` (simplevc.py:196-211) computes for the
proxy of `function_name` at `version`: when a version resolves,
`functools.update_wrapper` copies the implementation's `__doc__` and the
wrapper's `__name__`/`__qualname__` are then both set to `function_name`;
when none resolves, the docstring announces the first available version.
`none` models the `KeyError`/`IndexError` paths (unregistered name, empty
dict), which never occur for registered names. -/
def computeWrapper (method_dicts : List (PyStr × List (PyStr × FuncMeta)))
    (version function_name : PyStr) : Option WrapperMeta :=
  match dictLookup method_dicts function_name with
  | none => none
  | some method_dict =>
    match _get_last_version (pySorted (method_dict.map Prod.fst)) version with
    | some fv =>
      (dictLookup method_dict fv).map
        (fun f => ⟨function_name, function_name, f.doc⟩)
    | none =>
      (_get_first_available_version (pySorted (method_dict.map Prod.fst))).map
        (fun first =>
          ⟨function_name, function_name,
           some (unavailMsg function_name version first)⟩)

/-- `_update_module_vc(module, function_name, version)`
(simplevc.py:196-211): recompute and install the proxy's metadata. -/
def _update_module_vc (m : MetaModule) (function_name version : PyStr) :
    Option MetaModule :=
  (computeWrapper m.method_dicts version function_name).map
    (fun wm => {m with wrappers := setWrapper m.wrappers function_name wm})

/-- `set_module_version(module, version)` (simplevc.py:213-219): set
`module._version`, then refresh every registered proxy's metadata. -/
def set_module_version (m : MetaModule) (version : PyStr) :
    Option MetaModule :=
  List.foldlM (fun acc fn => _update_module_vc acc fn version)
    {m with version := version} (m.method_dicts.map Prod.fst)

/-- `get_module_version(module)` (simplevc.py:221-225): `module._version`. -/
def get_module_version (m : MetaModule) : PyStr :=
  m.version

/-- `name.rindex("_")` (simplevc.py:245-246): index of the last underscore;
Python raises `ValueError` when there is none, modelled by `none`. -/
def rfindUnderscore (l : PyStr) : Option Nat :=
  (l.reverse.findIdx? (· == '_')).map (fun i => l.length - 1 - i)

/-- The name convention parse in `_module_vc` (simplevc.py:245-246):
`function_name = func.__name__[1:func.__name__.rindex("_")]` and
`version = func.__name__[func.__name__.rindex("_") + 1:]`. -/
def parse_vc_name (name : PyStr) : Option (PyStr × PyStr) :=
  (rfindUnderscore name).map
    (fun r => ((name.drop 1).take (r - 1), name.drop (r + 1)))

example : parse_vc_name "_some_method_20200601".data =
    some ("some_method".data, "20200601".data) := by decide

/-- `_module_vc(module, func)` (simplevc.py:236-264): split the function's
name into base name and version suffix, store the function in the method
dict under the version suffix (creating the dict on first registration,
overwriting on re-registration), install the proxy and refresh its
metadata with the module's current version.  No step examines the version
suffix's content. -/
def _module_vc (m : MetaModule) (func_name : PyStr) (func : FuncMeta) :
    Option MetaModule :=
  match parse_vc_name func_name with
  | none => none
  | some (function_name, version) =>
    let method_dict := (dictLookup m.method_dicts function_name).getD []
    let newDicts :=
      dictSet m.method_dicts function_name (dictSet method_dict version func)
    let m2 := {m with method_dicts := newDicts}
    _update_module_vc m2 function_name m2.version

/-! ### Dict helper lemmas -/

theorem dictLookup_append {κ ν : Type} [DecidableEq κ]
    (d1 d2 : List (κ × ν)) (k : κ) :
    dictLookup (d1 ++ d2) k =
      match dictLookup d1 k with
      | some v => some v
      | none => dictLookup d2 k := by
  induction d1 with
  | nil => simp [dictLookup]
  | cons p rest ih =>
    by_cases hp : p.1 = k
    · simp [dictLookup, hp]
    · simp [dictLookup, hp, ih]

theorem dictLookup_map_overwrite {κ ν : Type} [DecidableEq κ]
    (d : List (κ × ν)) (k : κ) (v : ν) :
    dictLookup (d.map (fun p => if p.1 = k then (k, v) else p)) k =
      if (dictLookup d k).isSome then some v else none := by
  induction d with
  | nil => simp [dictLookup]
  | cons p rest ih =>
    by_cases hp : p.1 = k
    · simp [dictLookup, hp]
    · simp only [List.map_cons, if_neg hp]
      rw [dictLookup, if_neg hp, dictLookup, if_neg hp, ih]

theorem dictLookup_dictSet_self {κ ν : Type} [DecidableEq κ]
    (d : List (κ × ν)) (k : κ) (v : ν) :
    dictLookup (dictSet d k v) k = some v := by
  unfold dictSet
  by_cases h : (dictLookup d k).isSome
  · rw [if_pos h, dictLookup_map_overwrite, if_pos h]
  · rw [if_neg h, dictLookup_append]
    cases hl : dictLookup d k with
    | none => simp [dictLookup]
    | some w => rw [hl] at h; exact absurd rfl h

theorem dictSet_ne_nil {κ ν : Type} [DecidableEq κ]
    (d : List (κ × ν)) (k : κ) (v : ν) :
    dictSet d k v ≠ [] := by
  unfold dictSet
  by_cases h : (dictLookup d k).isSome
  · rw [if_pos h]
    cases d with
    | nil => rw [dictLookup] at h; exact absurd h (by simp)
    | cons p rest => simp
  · rw [if_neg h]
    simp

theorem head?_isSome_of_ne_nil {α : Type} {l : List α} (h : l ≠ []) :
    l.head?.isSome := by
  cases l with
  | nil => exact absurd rfl h
  | cons a t => rfl

/-! ### computeWrapper and the refresh fold -/

theorem computeWrapper_isSome
    {method_dicts : List (PyStr × List (PyStr × FuncMeta))}
    {function_name : PyStr} {d : List (PyStr × FuncMeta)} (version : PyStr)
    (hlk : dictLookup method_dicts function_name = some d) (hne : d ≠ []) :
    (computeWrapper method_dicts version function_name).isSome := by
  unfold computeWrapper
  rw [hlk]
  have hkeysne : pySorted (d.map Prod.fst) ≠ [] := by
    intro hnil
    exact hne (List.map_eq_nil_iff.mp (pySorted_eq_nil_iff.mp hnil))
  cases hres : _get_last_version (pySorted (d.map Prod.fst)) version with
  | none =>
    simp only [hres, _get_first_available_version, Option.isSome_map']
    exact head?_isSome_of_ne_nil hkeysne
  | some fv =>
    obtain ⟨hmem, _, _⟩ :=
      get_last_version_eq_some _ version fv (sorted_pySorted _) hres
    have hsome : (dictLookup d fv).isSome :=
      (dictLookup_isSome_iff d fv).mpr (mem_pySorted.mp hmem)
    simp only [hres, Option.isSome_map']
    exact hsome

theorem updateAll_spec (version : PyStr) :
    ∀ (ns : List PyStr) (m m2 : MetaModule),
    List.foldlM (fun acc fn => _update_module_vc acc fn version) m ns =
      some m2 →
    m2.method_dicts = m.method_dicts ∧ m2.version = m.version ∧
    ∀ k, m2.wrappers k =
      if k ∈ ns then computeWrapper m.method_dicts version k
      else m.wrappers k := by
  intro ns
  induction ns with
  | nil =>
    intro m m2 h
    obtain rfl : m = m2 := by simpa [List.foldlM] using h
    simp
  | cons n ns ih =>
    intro m m2 h
    rw [List.foldlM_cons] at h
    cases hup : _update_module_vc m n version with
    | none => rw [hup] at h; exact absurd h (by simp)
    | some m1 =>
      rw [hup] at h
      simp only [Option.bind_eq_bind] at h
      cases hcw : computeWrapper m.method_dicts version n with
      | none => rw [_update_module_vc, hcw] at hup; exact absurd hup (by simp)
      | some wm =>
        rw [_update_module_vc, hcw] at hup
        obtain rfl : {m with wrappers := setWrapper m.wrappers n wm} = m1 :=
          Option.some_injective _ hup
        obtain ⟨hd, hv, hw⟩ := ih _ m2 h
        refine ⟨hd, hv, ?_⟩
        intro k
        rw [hw k]
        by_cases hkns : k ∈ ns
    <;> by_cases hkn : k = n
    <;> simp [hkns, hkn, setWrapper, hcw]

theorem updateAll_isSome (version : PyStr) :
    ∀ (ns : List PyStr) (m : MetaModule),
    (∀ fn ∈ ns, (computeWrapper m.method_dicts version fn).isSome) →
    (List.foldlM (fun acc fn => _update_module_vc acc fn version) m
      ns).isSome := by
  intro ns
  induction ns with
  | nil =>
    intro m _
    simp [List.foldlM]
  | cons n ns ih =>
    intro m hall
    rw [List.foldlM_cons]
    cases hcw : computeWrapper m.method_dicts version n with
    | none =>
      have := hall n (List.mem_cons_self n ns)
      rw [hcw] at this
      exact absurd this (by simp)
    | some wm =>
      rw [_update_module_vc, hcw]
      simp only [Option.map_some, Option.bind_eq_bind, Option.some_bind]
      exact ih _ (fun fn hfn => hall fn (List.mem_cons_of_mem n hfn))

theorem updateAll_forces_isSome (version : PyStr) :
    ∀ (ns : List PyStr) (m : MetaModule),
    (List.foldlM (fun acc fn => _update_module_vc acc fn version)
      m ns).isSome →
    ∀ fn ∈ ns, (computeWrapper m.method_dicts version fn).isSome := by
  intro ns
  induction ns with
  | nil =>
    intro m _ fn hfn
    exact absurd hfn (List.not_mem_nil fn)
  | cons n ns ih =>
    intro m h fn hfn
    rw [List.foldlM_cons] at h
    cases hup : _update_module_vc m n version with
    | none => rw [hup] at h; exact absurd h (by simp)
    | some m1 =>
      rw [hup] at h
      simp only [Option.bind_eq_bind, Option.some_bind] at h
      cases hcw : computeWrapper m.method_dicts version n with
      | none => rw [_update_module_vc, hcw] at hup; exact absurd hup (by simp)
      | some wm =>
        rcases List.mem_cons.mp hfn with rfl | hfn2
        · rw [hcw]; rfl
        · rw [_update_module_vc, hcw] at hup
          obtain rfl : {m with wrappers := setWrapper m.wrappers n wm} = m1 :=
            Option.some_injective _ hup
          exact ih _ h fn hfn2

/-- Registration invariant: every registered name's method dict is
nonempty (registration inserts an entry immediately on creation). -/
def WFmod (m : MetaModule) : Prop :=
  ∀ p ∈ m.method_dicts, p.2 ≠ []

/-! ## Claim C10 -/

/-- **C10.** For every registered module (registration invariant `WFmod`)
and every string `v` — well-formed 8-digit version key or not —
`set_module_version` succeeds without raising, and a subsequent
`get_module_version` returns exactly `v`: the setter performs no validation
of the version string and the getter round-trips it unchanged. -/
theorem C10_set_version_unvalidated_roundtrip (m : MetaModule) (v : PyStr)
    (h : WFmod m) :
    (set_module_version m v).map get_module_version = some v := by
  have hall : ∀ fn ∈ m.method_dicts.map Prod.fst,
      (computeWrapper ({m with version := v}).method_dicts v fn).isSome := by
    intro fn hfn
    have hlks : (dictLookup m.method_dicts fn).isSome :=
      (dictLookup_isSome_iff _ fn).mpr hfn
    cases hlk : dictLookup m.method_dicts fn with
    | none => rw [hlk] at hlks; exact absurd hlks (by simp)
    | some d =>
      have hne : d ≠ [] := h (fn, d) (dictLookup_eq_some_mem hlk)
      exact computeWrapper_isSome v hlk hne
  have hsome := updateAll_isSome v (m.method_dicts.map Prod.fst)
    {m with version := v} hall
  rw [set_module_version]
  cases hset : List.foldlM (fun acc fn => _update_module_vc acc fn v)
      {m with version := v} (m.method_dicts.map Prod.fst) with
  | none => rw [hset] at hsome; exact absurd hsome (by simp)
  | some m2 =>
    obtain ⟨_, hv, _⟩ := updateAll_spec v _ _ m2 hset
    simp [get_module_version, hv]

/-- A concrete registered module used by the metadata witnesses. -/
def moduleM : MetaModule :=
  ⟨[("some_method".data, [("20200601".data, ⟨some "docA".data⟩)])],
   fun _ => none, "20200801".data⟩

theorem C10_set_version_unvalidated_roundtrip_witness :
    WFmod moduleM ∧
    (set_module_version moduleM "not-a-version".data).map
      get_module_version = some "not-a-version".data :=
  ⟨by unfold WFmod; decide,
   C10_set_version_unvalidated_roundtrip moduleM "not-a-version".data
     (by unfold WFmod; decide)⟩

/-! ## Claim C8 -/

/-- **C8.** `set_module_version` is idempotent: running it a second time
with the same version `X` reproduces the module state of the first run
exactly — the active version and every proxy's introspectable metadata
(name, qualname, docstring) included. -/
theorem C8_set_version_idempotent (m m1 : MetaModule) (X : PyStr)
    (h : set_module_version m X = some m1) :
    set_module_version m1 X = some m1 := by
  unfold set_module_version at h ⊢
  have hforces := updateAll_forces_isSome X (m.method_dicts.map Prod.fst)
    {m with version := X} (by rw [h]; rfl)
  cases m1 with
  | mk md1 w1 v1 =>
    obtain ⟨hd, hv, hw⟩ := updateAll_spec X _ _ _ h
    simp only at hd hv hw
    subst hd
    subst hv
    have hall : ∀ fn ∈ m.method_dicts.map Prod.fst,
        (computeWrapper m.method_dicts v1 fn).isSome := by
      intro fn hfn
      simpa using hforces fn hfn
    have hsome := updateAll_isSome v1 (m.method_dicts.map Prod.fst)
      ⟨m.method_dicts, w1, v1⟩ hall
    simp only at hsome ⊢
    cases hset2 : List.foldlM (fun acc fn => _update_module_vc acc fn v1)
        ⟨m.method_dicts, w1, v1⟩ (m.method_dicts.map Prod.fst) with
    | none => rw [hset2] at hsome; exact absurd hsome (by simp)
    | some m2 =>
      obtain ⟨hd2, hv2, hw2⟩ := updateAll_spec v1 _ _ m2 hset2
      cases m2 with
      | mk md2 w2 v2 =>
        simp only at hd2 hv2 hw2
        subst hd2
        subst hv2
        have hwrap : w2 = w1 := by
          funext k
          rw [hw2 k, hw k]
          by_cases hk : k ∈ m.method_dicts.map Prod.fst
          <;> simp [hk]
        rw [hwrap]

theorem C8_set_version_idempotent_witness :
    set_module_version moduleM "20200601".data =
      some ⟨[("some_method".data, [("20200601".data, ⟨some "docA".data⟩)])],
        setWrapper (fun _ => none) "some_method".data
          ⟨"some_method".data, "some_method".data, some "docA".data⟩,
        "20200601".data⟩ ∧
    set_module_version
      ⟨[("some_method".data, [("20200601".data, ⟨some "docA".data⟩)])],
        setWrapper (fun _ => none) "some_method".data
          ⟨"some_method".data, "some_method".data, some "docA".data⟩,
        "20200601".data⟩ "20200601".data =
      some ⟨[("some_method".data, [("20200601".data, ⟨some "docA".data⟩)])],
        setWrapper (fun _ => none) "some_method".data
          ⟨"some_method".data, "some_method".data, some "docA".data⟩,
        "20200601".data⟩ :=
  ⟨rfl, C8_set_version_idempotent moduleM _ "20200601".data rfl⟩

/-! ## Claim C3 -/

/-- A fresh module with no registrations. -/
def moduleFresh : MetaModule :=
  ⟨[], fun _ => none, "20200801".data⟩

/-- The implementation metadata registered in the C3 scenario. -/
def funcMetaW : FuncMeta :=
  ⟨some "docB".data⟩

/-- **C3 counterexample.**  The claim says registering an implementation
whose version suffix is malformed (not year/month/day integers) raises
`MalformedVersionError` at registration time.  The code performs no such
check: registering `_foo_banana` — version suffix `banana` — succeeds (the
result is `some _`, i.e. no exception) and silently stores the entry under
`"banana"`.  (`_compare_version`, which would raise on malformed input, is
never invoked by the registration path — it has no callers at all.) -/
theorem C3_counterexample_malformed_registration_succeeds :
    (_module_vc moduleFresh "_foo_banana".data funcMetaW).map
      (fun m2 => dictLookup
        ((dictLookup m2.method_dicts "foo".data).getD []) "banana".data) =
    some (some funcMetaW) := by
  rfl

/-- **C3 (amended).** Registration performs no validation of the version
suffix: for every function name that parses into a base name and a version
suffix — the suffix being any string whatsoever, malformed or not —
`_module_vc` succeeds (raises nothing) and stores the implementation under
that suffix. -/
theorem C3_amended_registration_never_validates (m : MetaModule)
    (nm : PyStr) (f : FuncMeta) (function_name version : PyStr)
    (hparse : parse_vc_name nm = some (function_name, version)) :
    (_module_vc m nm f).map
      (fun m2 => dictLookup
        ((dictLookup m2.method_dicts function_name).getD []) version) =
    some (some f) := by
  simp only [_module_vc, hparse]
  have hlk : dictLookup
      (dictSet m.method_dicts function_name
        (dictSet ((dictLookup m.method_dicts function_name).getD [])
          version f)) function_name =
      some (dictSet ((dictLookup m.method_dicts function_name).getD [])
        version f) :=
    dictLookup_dictSet_self _ _ _
  have hne := dictSet_ne_nil
    ((dictLookup m.method_dicts function_name).getD []) version f
  have hsome := computeWrapper_isSome m.version hlk hne
  cases hcw : computeWrapper
      (dictSet m.method_dicts function_name
        (dictSet ((dictLookup m.method_dicts function_name).getD [])
          version f)) m.version function_name with
  | none => rw [hcw] at hsome; exact absurd hsome (by simp)
  | some wm =>
    simp [_update_module_vc, hcw, hlk, dictLookup_dictSet_self]

theorem C3_amended_registration_never_validates_witness :
    parse_vc_name "_foo_banana".data = some ("foo".data, "banana".data) ∧
    (_module_vc moduleFresh "_foo_banana".data funcMetaW).map
      (fun m2 => dictLookup
        ((dictLookup m2.method_dicts "foo".data).getD []) "banana".data) =
    some (some funcMetaW) :=
  ⟨by decide,
   C3_amended_registration_never_validates moduleFresh "_foo_banana".data
     funcMetaW "foo".data "banana".data (by decide)⟩

/-! ## Version-key comparison (`_compare_version`) and the string order -/

/-- `_int_compare(a, b)` (simplevc.py:168-175): `-1`, `0` or `1`.  The
compared values here are the parsed (non-negative) date fields. -/
def _int_compare (a b : Nat) : Int :=
  if a < b then -1 else if a = b then 0 else 1

/-- Python slice `v[r1:r2]` (for `0 ≤ r1 ≤ r2`, with clamping past the
end, exactly as `drop`/`take` behave). -/
def pySlice (l : PyStr) (r1 r2 : Nat) : PyStr :=
  (l.drop r1).take (r2 - r1)

/-- Python `int(s)` restricted to strings of decimal digits, which is the
only shape the version-key fields can take; on anything else (including the
empty string) `int` raises `ValueError`, modelled by `none`. -/
def pyInt (s : PyStr) : Option Nat :=
  if s ≠ [] ∧ ∀ c ∈ s, 48 ≤ c.toNat ∧ c.toNat ≤ 57 then
    some (s.foldl (fun a c => a * 10 + (c.toNat - 48)) 0)
  else none

/-- `_compare_version(v1, v2)` (simplevc.py:177-183): compare
`int(v1[r1:r2])` with `int(v2[r1:r2])` for `(r1, r2)` in
`[(0,4), (4,6), (6,8)]`, stopping at the first nonzero comparison (so later
fields are not even parsed then).  A parse failure raises, modelled by
`none`. -/
def _compare_version (v1 v2 : PyStr) : Option Int :=
  match pyInt (pySlice v1 0 4), pyInt (pySlice v2 0 4) with
  | some a1, some b1 =>
    let r1 := _int_compare a1 b1
    if r1 ≠ 0 then some r1 else
      match pyInt (pySlice v1 4 6), pyInt (pySlice v2 4 6) with
      | some a2, some b2 =>
        let r2 := _int_compare a2 b2
        if r2 ≠ 0 then some r2 else
          match pyInt (pySlice v1 6 8), pyInt (pySlice v2 6 8) with
          | some a3, some b3 => some (_int_compare a3 b3)
          | _, _ => none
      | _, _ => none
  | _, _ => none

/-- A well-formed 8-character version key: exactly eight decimal digits
(code points 48–57). -/
def wfKey (v : PyStr) : Prop :=
  v.length = 8 ∧ ∀ c ∈ v, 48 ≤ c.toNat ∧ c.toNat ≤ 57

example : _compare_version "20200601".data "20200615".data = some (-1) := by
  decide

example : _compare_version "20200615".data "20200601".data = some 1 := by
  decide

example : _compare_version "20200601".data "20200601".data = some 0 := by
  decide

/-! ### Bridging lemmas between the char-list order and arithmetic -/

theorem char_lt_iff (a b : Char) : a < b ↔ a.toNat < b.toNat :=
  Iff.rfl

theorem char_eq_iff (a b : Char) : a = b ↔ a.toNat = b.toNat :=
  ⟨congrArg _, fun h => Char.eq_of_val_eq (UInt32.toNat.inj h)⟩

/-- Python's string `<` is the lexicographic order on code points: one
`cons` step of it. -/
theorem cons_lt_cons_iff (a b : Char) (l1 l2 : List Char) :
    (a :: l1) < (b :: l2) ↔ a < b ∨ (a = b ∧ l1 < l2) := by
  show List.Lex (· < ·) (a :: l1) (b :: l2) ↔ _
  constructor
  · intro h
    cases h with
    | cons h => exact Or.inr ⟨rfl, h⟩
    | rel h => exact Or.inl h
  · intro h
    rcases h with h | ⟨rfl, h⟩
    · exact List.Lex.rel h
    · exact List.Lex.cons h

theorem not_nil_lt_nil : ¬ ([] : List Char) < ([] : List Char) :=
  fun h => List.Lex.not_nil_right _ _ h

theorem eight_chars (l : PyStr) (h : l.length = 8) :
    ∃ c0 c1 c2 c3 c4 c5 c6 c7, l = [c0, c1, c2, c3, c4, c5, c6, c7] := by
  rcases l with _ | ⟨c0, _ | ⟨c1, _ | ⟨c2, _ | ⟨c3, _ | ⟨c4, _ | ⟨c5,
    _ | ⟨c6, _ | ⟨c7, _ | ⟨c8, t⟩⟩⟩⟩⟩⟩⟩⟩⟩
  all_goals simp only [List.length_cons, List.length_nil] at h
  all_goals first
    | omega
    | exact ⟨c0, c1, c2, c3, c4, c5, c6, c7, rfl⟩

theorem pyInt_four (c0 c1 c2 c3 : Char)
    (h0 : 48 ≤ c0.toNat ∧ c0.toNat ≤ 57)
    (h1 : 48 ≤ c1.toNat ∧ c1.toNat ≤ 57)
    (h2 : 48 ≤ c2.toNat ∧ c2.toNat ≤ 57)
    (h3 : 48 ≤ c3.toNat ∧ c3.toNat ≤ 57) :
    pyInt [c0, c1, c2, c3] =
      some ((((c0.toNat - 48) * 10 + (c1.toNat - 48)) * 10 +
        (c2.toNat - 48)) * 10 + (c3.toNat - 48)) := by
  unfold pyInt
  rw [if_pos]
  · simp [List.foldl]
  · refine ⟨by simp, ?_⟩
    intro c hc
    simp only [List.mem_cons, List.not_mem_nil, or_false] at hc
    rcases hc with rfl | rfl | rfl | rfl <;> assumption

theorem pyInt_two (c0 c1 : Char)
    (h0 : 48 ≤ c0.toNat ∧ c0.toNat ≤ 57)
    (h1 : 48 ≤ c1.toNat ∧ c1.toNat ≤ 57) :
    pyInt [c0, c1] = some ((c0.toNat - 48) * 10 + (c1.toNat - 48)) := by
  unfold pyInt
  rw [if_pos]
  · simp [List.foldl]
  · refine ⟨by simp, ?_⟩
    intro c hc
    simp only [List.mem_cons, List.not_mem_nil, or_false] at hc
    rcases hc with rfl | rfl <;> assumption

/-! ## Claim C9 -/

set_option maxHeartbeats 3200000 in
/-- **C9.** For all well-formed 8-digit version keys, the plain
lexicographic string ordering — the one `bisect.bisect_right` uses inside
the resolver — agrees with the field-wise integer ordering over
(year, month, day) computed by `_compare_version`: `v1 < v2` as strings iff
`_compare_version v1 v2 = -1`, `v1 = v2` iff it is `0`, and `v2 < v1` iff
it is `1`. -/
theorem C9_string_order_agrees_with_compare_version (v1 v2 : PyStr)
    (h1 : wfKey v1) (h2 : wfKey v2) :
    (v1 < v2 ↔ _compare_version v1 v2 = some (-1)) ∧
    (v1 = v2 ↔ _compare_version v1 v2 = some 0) ∧
    (v2 < v1 ↔ _compare_version v1 v2 = some 1) := by
  obtain ⟨hl1, hd1⟩ := h1
  obtain ⟨hl2, hd2⟩ := h2
  obtain ⟨a0, a1, a2, a3, a4, a5, a6, a7, rfl⟩ := eight_chars _ hl1
  obtain ⟨b0, b1, b2, b3, b4, b5, b6, b7, rfl⟩ := eight_chars _ hl2
  have Ha0 := hd1 a0 (by simp)
  have Ha1 := hd1 a1 (by simp)
  have Ha2 := hd1 a2 (by simp)
  have Ha3 := hd1 a3 (by simp)
  have Ha4 := hd1 a4 (by simp)
  have Ha5 := hd1 a5 (by simp)
  have Ha6 := hd1 a6 (by simp)
  have Ha7 := hd1 a7 (by simp)
  have Hb0 := hd2 b0 (by simp)
  have Hb1 := hd2 b1 (by simp)
  have Hb2 := hd2 b2 (by simp)
  have Hb3 := hd2 b3 (by simp)
  have Hb4 := hd2 b4 (by simp)
  have Hb5 := hd2 b5 (by simp)
  have Hb6 := hd2 b6 (by simp)
  have Hb7 := hd2 b7 (by simp)
  unfold _compare_version
  rw [show pySlice [a0, a1, a2, a3, a4, a5, a6, a7] 0 4 =
      [a0, a1, a2, a3] from rfl,
    show pySlice [b0, b1, b2, b3, b4, b5, b6, b7] 0 4 =
      [b0, b1, b2, b3] from rfl,
    show pySlice [a0, a1, a2, a3, a4, a5, a6, a7] 4 6 = [a4, a5] from rfl,
    show pySlice [b0, b1, b2, b3, b4, b5, b6, b7] 4 6 = [b4, b5] from rfl,
    show pySlice [a0, a1, a2, a3, a4, a5, a6, a7] 6 8 = [a6, a7] from rfl,
    show pySlice [b0, b1, b2, b3, b4, b5, b6, b7] 6 8 = [b6, b7] from rfl,
    pyInt_four a0 a1 a2 a3 Ha0 Ha1 Ha2 Ha3,
    pyInt_four b0 b1 b2 b3 Hb0 Hb1 Hb2 Hb3,
    pyInt_two a4 a5 Ha4 Ha5, pyInt_two b4 b5 Hb4 Hb5,
    pyInt_two a6 a7 Ha6 Ha7, pyInt_two b6 b7 Hb6 Hb7]
  simp only [cons_lt_cons_iff, char_lt_iff, char_eq_iff, not_nil_lt_nil,
    List.cons.injEq, and_true, or_false, and_false, false_or, false_and,
    _int_compare]
  refine ⟨?_, ?_, ?_⟩
  <;> split_ifs
  <;> simp only [Option.some.injEq]
  <;> norm_num
  <;> omega

theorem C9_string_order_agrees_with_compare_version_witness :
    wfKey "20200601".data ∧ wfKey "20200615".data ∧
    (("20200601".data : PyStr) < "20200615".data ↔
      _compare_version "20200601".data "20200615".data = some (-1)) ∧
    ("20200601".data = "20200615".data ↔
      _compare_version "20200601".data "20200615".data = some 0) ∧
    (("20200615".data : PyStr) < "20200601".data ↔
      _compare_version "20200601".data "20200615".data = some 1) :=
  ⟨by unfold wfKey; decide, by unfold wfKey; decide,
   C9_string_order_agrees_with_compare_version "20200601".data
     "20200615".data (by unfold wfKey; decide) (by unfold wfKey; decide)⟩

end Simplevc
